import Mathlib

/-!
# Verification of the text-search ranking core (`tsrank.cpp`)

A shallow embedding of `src/common/backend/utils/adt/tsrank.cpp`:
the standard ranker (`calc_rank_or` / `calc_rank_and` / `calc_rank`),
the cover-density ranker (`get_docrep` / `cover` / `calc_rank_cd`),
and the lexeme lookup (`find_wordentry`).

Modelling conventions:
* `float`/`double` arithmetic is modelled over `ℝ` (exact real arithmetic on
  the same formulas);
* a packed `WordEntryPos` (`uint16`, 14 position bits + 2 weight bits) is a
  `ℕ`: `WEP_GETPOS v = v % 16384`, `WEP_GETWEIGHT v = v / 16384 % 4`;
* the byte string of a lexeme is a `List ℕ`;
* `ereport(ERROR, ...)` paths are modelled with `Except Unit`;
* `qsort` is modelled by an insertion sort (the source's comparator is
  deterministic, `qsort`'s order among compare-equal elements is
  implementation-defined).
-/

namespace TsRank

/-- One lexeme of a document vector (`WordEntry` plus its position data):
the byte string and the packed position list.  `haspos` in the source
corresponds to `positions ≠ []`. -/
structure WordEntry where
  lex : List ℕ
  positions : List ℕ
  deriving DecidableEq, Inhabited, Repr

/-- `WEP_GETPOS`: low 14 bits of a packed position. -/
def wepGetPos (v : ℕ) : ℕ := v % 16384

/-- `WEP_GETWEIGHT`: high 2 bits of a packed (`uint16`) position. -/
def wepGetWeight (v : ℕ) : Fin 4 := ⟨v / 16384 % 4, Nat.mod_lt _ (by norm_num)⟩

/-- The static default weight table `{0.1f, 0.2f, 0.4f, 1.0f}`. -/
noncomputable def weights (i : Fin 4) : ℝ :=
  if i.val = 0 then 0.1 else if i.val = 1 then 0.2 else if i.val = 2 then 0.4 else 1

/-- `wpos(wep) = w[WEP_GETWEIGHT(wep)]`. -/
noncomputable def wpos (w : Fin 4 → ℝ) (v : ℕ) : ℝ := w (wepGetWeight v)

/-- `MAXENTRYPOS = 1 << 14`. -/
def MAXENTRYPOS : ℕ := 16384

/-- Modelled from the spec: `tsCompareString` (§4.1), which lives outside the
ranking source file.  Bytewise comparison over the common length; when the
shorter side is exhausted, prefix mode (`m = true`) reports equality whenever
the first argument (the query operand) is exhausted, while exact mode breaks
the tie by length. -/
def tsCmp : List ℕ → List ℕ → Bool → Ordering
  | [], [], _ => .eq
  | [], _ :: _, m => if m then .eq else .lt
  | _ :: _, [], _ => .gt
  | a :: as, b :: bs, m => if a < b then .lt else if b < a then .gt else tsCmp as bs m

/-- Boolean "`p` is a bytewise prefix of `s`". -/
def isPfxOf : List ℕ → List ℕ → Bool
  | [], _ => true
  | _ :: _, [] => false
  | a :: as, b :: bs => a = b && isPfxOf as bs

/-- Lexeme of the `i`-th entry (out-of-range reads give the empty string;
the source never reads out of range). -/
def getLex (t : List WordEntry) (i : ℕ) : List ℕ := (t.getD i default).lex

/-- The binary-search loop of `find_wordentry`: returns the final
`stop_high` together with the "broke on equality" flag. -/
def bsearchFW (t : List WordEntry) (lx : List ℕ) (lo hi : ℕ) : ℕ × Bool :=
  if _h : lo < hi then
    let mid := lo + (hi - lo) / 2
    match tsCmp lx (getLex t mid) false with
    | .eq => (mid, true)
    | .gt => bsearchFW t lx (mid + 1) hi
    | .lt => bsearchFW t lx lo mid
  else (hi, false)
  termination_by hi - lo
  decreasing_by
  · have h1 : lo + (hi - lo) / 2 < hi := by omega
    omega
  · omega

/-- The forward scan of `find_wordentry` in prefix mode: counts entries from
`i` on while the operand is still a prefix of the entry. -/
def scanRun (t : List WordEntry) (lx : List ℕ) (i : ℕ) : ℕ :=
  if _h : i < t.length ∧ tsCmp lx (getLex t i) true = .eq then 1 + scanRun t lx (i + 1)
  else 0
  termination_by t.length - i
  decreasing_by omega

/-- `find_wordentry(t, q, item, &nitem)`: returns `(first index, nitem)`.
`nitem = 0` corresponds to the source returning `NULL`. -/
def find_wordentry (t : List WordEntry) (lx : List ℕ) (pfx : Bool) : ℕ × ℕ :=
  let r := bsearchFW t lx 0 t.length
  if pfx then (r.1, scanRun t lx r.1) else (r.1, if r.2 then 1 else 0)

/-- The document vector's invariant (§3): sorted ascending by lexeme string
with no duplicates, i.e. strictly sorted under the exact bytewise order. -/
def tsSorted (t : List WordEntry) : Prop :=
  List.Pairwise (fun a b => tsCmp a.lex b.lex false = .lt) t

/-- A boolean operator of a query tree: `OP_AND`, `OP_OR` or `OP_NOT`. -/
inductive TSQOper where
  | opAnd
  | opOr
  | opNot
  deriving DecidableEq, Inhabited, Repr

/-- A query node: a leaf operand (`QI_VAL`) carrying its byte string and
prefix flag, or an operator node (`QI_OPR`). -/
inductive TSQItem where
  | val (lx : List ℕ) (pfx : Bool)
  | opr (o : TSQOper)
  deriving DecidableEq, Inhabited, Repr

/-- A query is the flattened node sequence (`GETQUERY`); node 0 is the root.
Operand byte strings are stored inline rather than via the string pool. -/
abbrev TSQuery := List TSQItem

/-- `cnt_length(t)`: entries without positions count 1, others their
position count. -/
def cnt_length (t : List WordEntry) : ℕ :=
  (t.map (fun e => if e.positions = [] then 1 else e.positions.length)).sum

/-- A collected query operand: its byte string and prefix flag. -/
abbrev Opnd := List ℕ × Bool

/-- The `QI_VAL` leaves of a flattened query, in query order. -/
def collectVals : TSQuery → List Opnd
  | [] => []
  | .val lx px :: rest => (lx, px) :: collectVals rest
  | .opr _ :: rest => collectVals rest

/-- Insert one operand into a list sorted by `compare_query_operand`
(bytewise `(length, bytes)` order on the operand string). -/
def insertOp (o : Opnd) : List Opnd → List Opnd
  | [] => [o]
  | x :: xs => if tsCmp o.1 x.1 false = .gt then x :: insertOp o xs else o :: x :: xs

/-- Sort the operand list by `compare_query_operand` (the source uses
`qsort_arg`; compare-equal elements may land in either order there). -/
def sortOps : List Opnd → List Opnd
  | [] => []
  | x :: xs => insertOp x (sortOps xs)

/-- The duplicate-removal scan of `sort_and_uniq_items`: keep an element
when it compares different from the last kept one. -/
def dedupGo (prev : Opnd) : List Opnd → List Opnd
  | [] => []
  | x :: xs => if tsCmp x.1 prev.1 false = .eq then dedupGo prev xs else x :: dedupGo x xs

/-- Remove compare-equal duplicates from a sorted operand list, keeping the
first element of each run. -/
def dedupAdjacent : List Opnd → List Opnd
  | [] => []
  | a :: rest => a :: dedupGo a rest

/-- `sort_and_uniq_items(q, &size)`: the `QI_VAL` operands, sorted and
de-duplicated bytewise (lists with fewer than 2 operands are returned
unsorted, exactly as in the source). -/
def sort_and_uniq_items (q : TSQuery) : List Opnd :=
  let res := collectVals q
  if res.length < 2 then res else dedupAdjacent (sortOps res)

/-- One iteration of `calc_rank_or`'s inner position loop: state is
`(resj, wjm, jm)`, input is `(j, post[j])`. -/
noncomputable def orStep (w : Fin 4 → ℝ) (st : ℝ × ℝ × ℕ) (jv : ℕ × ℕ) : ℝ × ℝ × ℕ :=
  let resj := st.1 + wpos w jv.2 / (((jv.1 + 1) * (jv.1 + 1) : ℕ) : ℝ)
  if wpos w jv.2 > st.2.1 then (resj, wpos w jv.2, jv.1) else (resj, st.2.1, st.2.2)

/-- The per-entry contribution of `calc_rank_or`:
`(wjm + resj - wjm/((jm+1)*(jm+1))) / 1.64493406685` computed from the
entry's (possibly synthetic) position list. -/
noncomputable def orEntryContrib (w : Fin 4 → ℝ) (ps : List ℕ) : ℝ :=
  let s := (ps.enum).foldl (orStep w) (0, -1, 0)
  (s.2.1 + s.1 - s.2.1 / (((s.2.2 + 1) * (s.2.2 + 1) : ℕ) : ℝ)) / 1.64493406685

/-- The position list `calc_rank_or` iterates for an entry: the stored
positions, or the dummy `POSNULL`-style singleton (one packed value `0`)
when the entry has none. -/
def posListOf (e : WordEntry) : List ℕ :=
  if e.positions = [] then [0] else e.positions

/-- `calc_rank_or(w, t, q)`. -/
noncomputable def calc_rank_or (w : Fin 4 → ℝ) (t : List WordEntry) (q : TSQuery) : ℝ :=
  let items := sort_and_uniq_items q
  let res := items.foldl (fun res op =>
    let fn := find_wordentry t op.1 op.2
    ((t.drop fn.1).take fn.2).foldl (fun r e => r + orEntryContrib w (posListOf e)) res) 0
  if 0 < items.length then res / (items.length : ℝ) else res

/-- `word_distance(w)`: the weight of a word collocation. -/
noncomputable def word_distance (d : ℕ) : ℝ :=
  if 100 < d then 1e-30
  else 1 / (1.005 + 0.05 * Real.exp ((d : ℝ) / 1.5 - 2))

/-- The innermost double loop of `calc_rank_and` over the Cartesian product
of two operands' position lists.  `sI`/`sK` record whether the respective
list is the shared synthetic singleton `pos_null_ptr` (pointer identity in
the source). -/
noncomputable def andPairs (w : Fin 4 → ℝ) (sI : Bool) (postI : List ℕ) (sK : Bool)
    (postK : List ℕ) (res : ℝ) : ℝ :=
  postI.foldl (fun r pl =>
    postK.foldl (fun r2 cp =>
      let dist := Int.natAbs ((wepGetPos pl : ℤ) - (wepGetPos cp : ℤ))
      if dist ≠ 0 ∨ (dist = 0 ∧ (sI = true ∨ sK = true)) then
        let d := if dist = 0 then MAXENTRYPOS else dist
        let curw := Real.sqrt (wpos w pl * wpos w cp * word_distance d)
        if r2 < 0 then curw else 1 - (1 - r2) * (1 - curw)
      else r2) r) res

/-- The position data `calc_rank_and` stores into `pos[i]` for one entry:
the synthetic singleton (`WEP_SETPOS(pos[0], MAXENTRYPOS - 1)`, so packed
value `16383`) when the entry has no positions, else the stored list.  The
`Bool` is the `pos[i] == pos_null_ptr` identity. -/
def andPosData (e : WordEntry) : Bool × List ℕ :=
  if e.positions = [] then (true, [MAXENTRYPOS - 1]) else (false, e.positions)

/-- `calc_rank_and(w, t, q)`.  State of the outer fold: the `pos` array
(`none` = never assigned) and the running `res` (initially `-1.0`). -/
noncomputable def calc_rank_and (w : Fin 4 → ℝ) (t : List WordEntry) (q : TSQuery) : ℝ :=
  let items := sort_and_uniq_items q
  if items.length < 2 then calc_rank_or w t q
  else
    (items.enum.foldl (fun (st : (ℕ → Option (Bool × List ℕ)) × ℝ) iop =>
      let fn := find_wordentry t iop.2.1 iop.2.2
      ((t.drop fn.1).take fn.2).foldl (fun st2 e =>
        let cur := andPosData e
        let r2 := (List.range iop.1).foldl (fun r k =>
          match st2.1 k with
          | none => r
          | some pk => andPairs w cur.1 cur.2 pk.1 pk.2 r) st2.2
        (Function.update st2.1 iop.1 (some cur), r2)) st)
      ((fun _ => none), -1)).2

/-- Root dispatch of the standard ranker: `calc_rank_and` iff the query's
first node is an `AND` operator. -/
def isAndRoot (q : TSQuery) : Bool :=
  match q.head? with
  | some (.opr .opAnd) => true
  | _ => false

/-- The raw (pre-normalisation) standard score chosen by the dispatch in
`calc_rank`. -/
noncomputable def calcRankRaw (w : Fin 4 → ℝ) (t : List WordEntry) (q : TSQuery) : ℝ :=
  if isAndRoot q then calc_rank_and w t q else calc_rank_or w t q

/-- `res /= res + 1`, the `RANK_NORM_RDIVRPLUS1` (0x20) step shared by both
rankers. -/
noncomputable def selfNorm (r : ℝ) : ℝ := r / (r + 1)

/-- The normalisation tail of `calc_rank` (bits 0x01, 0x02, 0x08, 0x10,
0x20 of `method`; `RANK_NORM_EXTDIST` is not applicable there). -/
noncomputable def rankNormalize (method : ℕ) (t : List WordEntry) (res : ℝ) : ℝ :=
  let r1 := if method.testBit 0 ∧ 0 < t.length then
    res / (Real.log ((cnt_length t : ℝ) + 1) / Real.log 2) else res
  let r2 := if method.testBit 1 ∧ 0 < cnt_length t then r1 / (cnt_length t : ℝ) else r1
  let r3 := if method.testBit 3 ∧ 0 < t.length then r2 / (t.length : ℝ) else r2
  let r4 := if method.testBit 4 ∧ 0 < t.length then
    r3 / (Real.log ((t.length : ℝ) + 1) / Real.log 2) else r3
  if method.testBit 5 then selfNorm r4 else r4

/-- `calc_rank(w, t, q, method)`. -/
noncomputable def calc_rank (w : Fin 4 → ℝ) (t : List WordEntry) (q : TSQuery)
    (method : ℕ) : ℝ :=
  if t.length = 0 ∨ q.length = 0 then 0
  else
    let res := calcRankRaw w t q
    rankNormalize method t (if res < 0 then 1e-20 else res)

/-! ## Cover-density ranker -/

/-- One occurrence of a `DocRepresentation`: its document position, weight
class, and the indices of the query operands it satisfies (`item`/`nitem`). -/
structure Occ where
  pos : ℕ
  wclass : Fin 4
  items : List ℕ
  deriving DecidableEq, Repr

instance : Inhabited Occ := ⟨⟨0, 0, []⟩⟩

/-- Occurrence at index `i` of a doc-rep (the source never reads out of
range). -/
def getOcc (doc : List Occ) (i : ℕ) : Occ := doc.getD i default

/-- `QR_SET_OPERAND_EXISTS` for each attached item of `QI_VAL` type. -/
def setExist (qis : TSQuery) (ex : ℕ → Bool) (its : List ℕ) : ℕ → Bool :=
  its.foldl (fun ex2 k =>
    match qis.getD k default with
    | .val _ _ => Function.update ex2 k true
    | .opr _ => ex2) ex

/-- The initial value of `ext->p`, `0x7fffffff`. -/
def INITP : ℕ := 0x7fffffff

/-- The state record `Extention` (`pos`, `p`, `q`, and the `begin`/`end`
pointers as doc-rep indices `b`/`e`). -/
structure Ext where
  pos : ℕ
  p : ℕ
  q : ℕ
  b : ℕ
  e : ℕ
  deriving DecidableEq, Repr

/-- The upward scan of `cover`: starting at index `i` with existence map
`ex`, accumulate operand-existence bits and return the first index at which
the external evaluator (`TS_execute`, non-strict) accepts. -/
def fwdScan (qis : TSQuery) (exec : (ℕ → Bool) → Bool → Bool) (doc : List Occ)
    (ex : ℕ → Bool) (i : ℕ) : Option ℕ :=
  if _h : i < doc.length then
    let ex2 := setExist qis ex (getOcc doc i).items
    if exec ex2 false then some i else fwdScan qis exec doc ex2 (i + 1)
  else none
  termination_by doc.length - i
  decreasing_by omega

/-- The downward scan of `cover`: from index `i` down to `dn`, accumulate
existence bits and return the first index at which the evaluator (strict
mode) accepts. -/
def bwdScan (qis : TSQuery) (exec : (ℕ → Bool) → Bool → Bool) (doc : List Occ)
    (ex : ℕ → Bool) (i dn : ℕ) : Option ℕ :=
  if i < dn then none
  else
    let ex2 := setExist qis ex (getOcc doc i).items
    if exec ex2 true then some i
    else if dn < i then bwdScan qis exec doc ex2 (i - 1) dn else none
  termination_by i - dn
  decreasing_by omega

lemma fwdScan_some_aux {qis exec doc} :
    ∀ k i ex u, doc.length - i ≤ k → fwdScan qis exec doc ex i = some u →
      i ≤ u ∧ u < doc.length := by
  intro k
  induction k with
  | zero =>
    intro i ex u hk h
    rw [fwdScan] at h
    rw [dif_neg (by omega)] at h
    exact absurd h (by simp)
  | succ n ih =>
    intro i ex u hk h
    rw [fwdScan] at h
    by_cases hi : i < doc.length
    · rw [dif_pos hi] at h
      simp only [] at h
      split at h
      · cases h; omega
      · have := ih (i + 1) _ u (by omega) h
        omega
    · rw [dif_neg hi] at h
      exact absurd h (by simp)

/-- A successful upward scan starts at or after `i` and stays inside the
doc-rep. -/
lemma fwdScan_some {qis exec doc ex i u} (h : fwdScan qis exec doc ex i = some u) :
    i ≤ u ∧ u < doc.length :=
  fwdScan_some_aux (doc.length - i) i ex u le_rfl h

lemma bwdScan_some_aux {qis exec doc} :
    ∀ k i ex dn l, i - dn ≤ k → bwdScan qis exec doc ex i dn = some l →
      dn ≤ l ∧ l ≤ i := by
  intro k
  induction k with
  | zero =>
    intro i ex dn l hk h
    rw [bwdScan] at h
    by_cases hd : i < dn
    · rw [if_pos hd] at h
      exact absurd h (by simp)
    · rw [if_neg hd] at h
      simp only [] at h
      split at h
      · cases h; omega
      · rw [if_neg (by omega)] at h
        exact absurd h (by simp)
  | succ n ih =>
    intro i ex dn l hk h
    rw [bwdScan] at h
    by_cases hd : i < dn
    · rw [if_pos hd] at h
      exact absurd h (by simp)
    · rw [if_neg hd] at h
      simp only [] at h
      split at h
      · cases h; omega
      · by_cases hlt : dn < i
        · rw [if_pos hlt] at h
          have := ih (i - 1) _ dn l (by omega) h
          omega
        · rw [if_neg hlt] at h
          exact absurd h (by simp)

/-- A successful downward scan lands between `dn` and `i`. -/
lemma bwdScan_some {qis exec doc ex i dn l} (h : bwdScan qis exec doc ex i dn = some l) :
    dn ≤ l ∧ l ≤ i :=
  bwdScan_some_aux (i - dn) i ex dn l le_rfl h

/-- `cover(doc, len, qr, ext)`.  Returns `some` of the updated `Extention`
on success (`true` in the source), `none` on failure; the boolean evaluator
`TS_execute` is passed in as `exec existmap strict`. -/
def cover (qis : TSQuery) (exec : (ℕ → Bool) → Bool → Bool) (doc : List Occ)
    (ext : Ext) : Option Ext :=
  let ext1 : Ext := { ext with p := INITP, q := 0 }
  match _hf : fwdScan qis exec doc (fun _ => false) ext1.pos with
  | none => none
  | some u =>
    if (getOcc doc u).pos > ext1.q then
      let ext2 : Ext := { ext1 with q := (getOcc doc u).pos, e := u }
      match bwdScan qis exec doc (fun _ => false) u ext2.pos with
      | some l =>
        let ext3 : Ext :=
          if (getOcc doc l).pos < ext2.p then { ext2 with p := (getOcc doc l).pos, b := l }
          else ext2
        if ext3.p ≤ ext3.q then some { ext3 with pos := l + 1 }
        else cover qis exec doc { ext3 with pos := ext3.pos + 1 }
      | none =>
        if ext2.p ≤ ext2.q then some { ext2 with pos := ext2.pos - 1 + 1 }
        else cover qis exec doc { ext2 with pos := ext2.pos + 1 }
    else none
  termination_by doc.length - ext.pos
  decreasing_by
  all_goals
    have h1 := fwdScan_some _hf
    dsimp only at h1 ⊢
    first
    | (split <;> (dsimp only; omega))
    | omega

lemma getOcc_mem {doc : List Occ} {i : ℕ} (h : i < doc.length) : getOcc doc i ∈ doc := by
  unfold getOcc
  rw [List.getD_eq_getElem _ _ h]
  exact List.getElem_mem h

lemma cover_some_facts_aux {qis exec doc} (hb : ∀ o ∈ doc, o.pos < INITP) :
    ∀ k ext ex2, doc.length - ext.pos ≤ k → cover qis exec doc ext = some ex2 →
      ext.pos < doc.length ∧ ext.pos < ex2.pos ∧ ex2.pos ≤ doc.length ∧
      ex2.p ≤ ex2.q ∧ ex2.b < ex2.pos ∧ ex2.b ≤ ex2.e ∧ ex2.e < doc.length := by
  intro k
  induction k with
  | zero =>
    intro ext ex2 hk h
    rw [cover] at h
    dsimp only at h
    split at h
    · exact absurd h (by simp)
    · rename_i u hfwd
      have h1 := fwdScan_some hfwd
      omega
  | succ n ih =>
    intro ext ex2 hk h
    rw [cover] at h
    dsimp only at h
    split at h
    · exact absurd h (by simp)
    · rename_i u hfwd
      have h1 := fwdScan_some hfwd
      split at h
      · -- (getOcc doc u).pos > 0
        split at h
        · -- bwdScan succeeded with some l
          rename_i l hbwd
          have h2 := bwdScan_some hbwd
          have hl : (getOcc doc l).pos < INITP := hb _ (getOcc_mem (by omega))
          rw [if_pos hl] at h
          split at h
          · -- accepted: p <= q
            rename_i hpq
            cases h
            dsimp only at hpq ⊢
            omega
          · -- rejected: recurse with pos + 1
            have h3 := ih _ ex2 (by dsimp only; omega) h
            dsimp only at h3
            omega
        · -- bwdScan exhausted
          split at h
          · -- p <= q with p = INITP: impossible, positions are below INITP
            rename_i hpq
            try dsimp only at hpq
            have hu : (getOcc doc u).pos < INITP := hb _ (getOcc_mem (by omega))
            omega
          · have h3 := ih _ ex2 (by dsimp only; omega) h
            dsimp only at h3
            omega
      · exact absurd h (by simp)

/-- Whenever `cover` succeeds on a doc-rep whose positions are all below
`0x7fffffff`, the reported extent is inside the doc-rep, has `p ≤ q`, and
`ext->pos` strictly advances past the cover's begin index. -/
lemma cover_some_facts {qis exec doc ext ex2} (hb : ∀ o ∈ doc, o.pos < INITP)
    (h : cover qis exec doc ext = some ex2) :
    ext.pos < doc.length ∧ ext.pos < ex2.pos ∧ ex2.pos ≤ doc.length ∧
      ex2.p ≤ ex2.q ∧ ex2.b < ex2.pos ∧ ex2.b ≤ ex2.e ∧ ex2.e < doc.length :=
  cover_some_facts_aux hb (doc.length - ext.pos) ext ex2 le_rfl h

/-- The operand list attached to a fresh occurrence batch in `get_docrep`:
every query node `k` with `k == i`, or of `QI_VAL` type with the same
operand string (`compare_query_operand == 0`). -/
def drepItems (qis : TSQuery) (i : ℕ) (lx : List ℕ) : List ℕ :=
  (List.range qis.length).filter (fun k =>
    k == i ||
      match qis.getD k default with
      | .val lx2 _ => tsCmp lx2 lx false == .eq
      | .opr _ => false)

/-- The occurrence-building loop of `get_docrep`: walk the remaining query
nodes (`rest`, starting at index `i`), skipping non-`QI_VAL` nodes and
operands already marked in the existence map `ex`; for a fresh operand,
look it up and emit one occurrence per position of every entry of the run,
marking every same-string operand node. -/
def drepBuild (t : List WordEntry) (qis : TSQuery) :
    List TSQItem → ℕ → (ℕ → Bool) → List Occ
  | [], _, _ => []
  | .opr _ :: rest, i, ex => drepBuild t qis rest (i + 1) ex
  | .val lx px :: rest, i, ex =>
    if ex i then drepBuild t qis rest (i + 1) ex
    else
      let fn := find_wordentry t lx px
      if fn.2 = 0 then drepBuild t qis rest (i + 1) ex
      else
        let its := drepItems qis i lx
        let occs := ((t.drop fn.1).take fn.2).foldr (fun e acc =>
          (posListOf e).map (fun v => ⟨wepGetPos v, wepGetWeight v, its⟩) ++ acc) []
        occs ++ drepBuild t qis rest (i + 1) (fun j => ex j || its.contains j)

/-- Insert an occurrence into a list sorted ascending by `pos`
(`compareDocR`). -/
def insertPos (o : Occ) : List Occ → List Occ
  | [] => [o]
  | x :: xs => if o.pos ≤ x.pos then o :: x :: xs else x :: insertPos o xs

/-- Sort a doc-rep ascending by `pos` (the source uses `qsort` with
`compareDocR`; order among equal positions is implementation-defined). -/
def sortByPos : List Occ → List Occ
  | [] => []
  | x :: xs => insertPos x (sortByPos xs)

/-- `get_docrep(txt, qr, &doclen)`: `none` models the `NULL` return when no
occurrence was produced. -/
def get_docrep (t : List WordEntry) (q : TSQuery) : Option (List Occ) :=
  let occs := drepBuild t q q 0 (fun _ => false)
  if 0 < occs.length then some (sortByPos occs) else none

lemma insertPos_mem {a o : Occ} {l : List Occ} :
    a ∈ insertPos o l ↔ a = o ∨ a ∈ l := by
  induction l with
  | nil => simp [insertPos]
  | cons x xs ih =>
    rw [insertPos]
    split
    · simp
    · simp [ih]
      tauto

lemma sortByPos_mem {a : Occ} {l : List Occ} : a ∈ sortByPos l ↔ a ∈ l := by
  induction l with
  | nil => simp [sortByPos]
  | cons x xs ih => simp [sortByPos, insertPos_mem, ih]

lemma foldr_occs_pos {its : List ℕ} :
    ∀ (run : List WordEntry) (o : Occ),
      o ∈ run.foldr (fun e acc =>
        (posListOf e).map (fun v => ⟨wepGetPos v, wepGetWeight v, its⟩) ++ acc) [] →
      o.pos < MAXENTRYPOS := by
  intro run
  induction run with
  | nil => intro o h; simp at h
  | cons e rest ih =>
    intro o h
    simp only [List.foldr_cons, List.mem_append, List.mem_map] at h
    rcases h with ⟨v, _, hv⟩ | h
    · subst hv
      exact Nat.mod_lt _ (by norm_num)
    · exact ih o h

lemma drepBuild_pos_lt {t qis} :
    ∀ rest i ex o, o ∈ drepBuild t qis rest i ex → o.pos < MAXENTRYPOS := by
  intro rest
  induction rest with
  | nil => intro i ex o h; simp [drepBuild] at h
  | cons it rest ih =>
    intro i ex o h
    match it with
    | .opr _ => exact ih _ _ _ h
    | .val lx px =>
      rw [drepBuild] at h
      split at h
      · exact ih _ _ _ h
      · try dsimp only at h
        split at h
        · exact ih _ _ _ h
        · rw [List.mem_append] at h
          rcases h with h | h
          · exact foldr_occs_pos _ _ h
          · exact ih _ _ _ h

/-- Every position of a doc-rep built by `get_docrep` is a 14-bit value, in
particular below `0x7fffffff`. -/
lemma get_docrep_some_bound {t q doc} (h : get_docrep t q = some doc) :
    ∀ o ∈ doc, o.pos < INITP := by
  intro o ho
  unfold get_docrep at h
  try dsimp only at h
  split at h
  · cases h
    rw [sortByPos_mem] at ho
    have := drepBuild_pos_lt _ _ _ _ ho
    unfold MAXENTRYPOS at this
    unfold INITP
    omega
  · exact absurd h (by simp)

lemma cover_some_lt_aux {qis exec doc} :
    ∀ k ext ex2, doc.length - ext.pos ≤ k → cover qis exec doc ext = some ex2 →
      ext.pos < doc.length := by
  intro k
  induction k with
  | zero =>
    intro ext ex2 hk h
    rw [cover] at h
    dsimp only at h
    split at h
    · exact absurd h (by simp)
    · rename_i u hfwd
      have h1 := fwdScan_some hfwd
      omega
  | succ n ih =>
    intro ext ex2 hk h
    rw [cover] at h
    dsimp only at h
    split at h
    · exact absurd h (by simp)
    · rename_i u hfwd
      have h1 := fwdScan_some hfwd
      omega

/-- A successful `cover` can only start strictly inside the doc-rep. -/
lemma cover_some_lt {qis exec doc ext ex2} (h : cover qis exec doc ext = some ex2) :
    ext.pos < doc.length :=
  cover_some_lt_aux (doc.length - ext.pos) ext ex2 le_rfl h

/-- The effective weight `((arrdata[i] >= 0) ? arrdata[i] : weights[i])`
used by `calc_rank_cd` (and by `get_weights` for the standard ranker). -/
noncomputable def effW (w : Fin 4 → ℝ) (i : Fin 4) : ℝ :=
  if 0 ≤ w i then w i else weights i

/-- The `while (cover(...))` accumulation loop of `calc_rank_cd`: state is
`(wdoc, sum_dist, prev_ext_pos, n_ext_ent)`; returns the final
`(wdoc, sum_dist, n_ext_ent)`.

The `ext.pos < ex2.pos` test is a termination sentinel in the sense of the
spec (§9): on every doc-rep produced by `get_docrep` all positions are
14-bit values, `cover_some_facts` shows `ext->pos` strictly increases, and
the guard never fires; it merely makes the loop a structurally total
function. -/
noncomputable def coverLoop (qis : TSQuery) (exec : (ℕ → Bool) → Bool → Bool)
    (invw : Fin 4 → ℝ) (doc : List Occ)
    (wdoc sd prev : ℝ) (ne : ℕ) (ext : Ext) : ℝ × ℝ × ℕ :=
  match hc : cover qis exec doc ext with
  | none => (wdoc, sd, ne)
  | some ex2 =>
    let seg := (doc.drop ex2.b).take (ex2.e + 1 - ex2.b)
    let inv_sum := seg.foldl (fun s o => s + invw o.wclass) 0
    let cpos := ((ex2.e + 1 - ex2.b : ℕ) : ℝ) / inv_sum
    let nn : ℤ := ((ex2.q : ℤ) - (ex2.p : ℤ)) - ((ex2.e : ℤ) - (ex2.b : ℤ))
    let n_noise : ℤ := if nn < 0 then ((ex2.e : ℤ) - (ex2.b : ℤ)) / 2 else nn
    let wdoc2 := wdoc + cpos / ((1 + n_noise : ℤ) : ℝ)
    let cur := ((ex2.q + ex2.p : ℕ) : ℝ) / 2
    let sd2 := if 0 < ne ∧ prev < cur then sd + 1 / (cur - prev) else sd
    if _hpos : ext.pos < ex2.pos then coverLoop qis exec invw doc wdoc2 sd2 cur (ne + 1) ex2
    else (wdoc2, sd2, ne + 1)
  termination_by doc.length + 1 - ext.pos
  decreasing_by
    have h := cover_some_lt hc
    omega

/-- The normalisation tail of `calc_rank_cd` (all six `RANK_NORM_*` bits;
note that the 0x01 step divides by the natural logarithm there). -/
noncomputable def rankCDNormalize (method : ℕ) (t : List WordEntry) (n_ext : ℕ)
    (sum_dist : ℝ) (wdoc : ℝ) : ℝ :=
  let r1 := if method.testBit 0 ∧ 0 < t.length then
    wdoc / Real.log ((cnt_length t : ℝ) + 1) else wdoc
  let r2 := if method.testBit 1 ∧ 0 < cnt_length t then r1 / (cnt_length t : ℝ) else r1
  let r3 := if method.testBit 2 ∧ 0 < n_ext ∧ 0 < sum_dist then
    r2 / ((n_ext : ℝ) / sum_dist) else r2
  let r4 := if method.testBit 3 ∧ 0 < t.length then r3 / (t.length : ℝ) else r3
  let r5 := if method.testBit 4 ∧ 0 < t.length then
    r4 / (Real.log ((t.length : ℝ) + 1) / Real.log 2) else r4
  if method.testBit 5 then selfNorm r5 else r5

/-- `calc_rank_cd(arrdata, txt, query, method)`.  The `weight out of range`
`ereport` is the `.error` case; the boolean evaluator is the abstract
collaborator `exec`. -/
noncomputable def calc_rank_cd (w : Fin 4 → ℝ) (t : List WordEntry) (q : TSQuery)
    (exec : (ℕ → Bool) → Bool → Bool) (method : ℕ) : Except Unit ℝ :=
  if ∀ i, effW w i ≤ 1 then
    match get_docrep t q with
    | none => .ok 0
    | some doc =>
      let r := coverLoop q exec (fun i => 1 / effW w i) doc 0 0 0 0 ⟨0, 0, 0, 0, 0⟩
      .ok (rankCDNormalize method t r.2.2 r.2.1 r.1)
  else .error ()

/-! ## Helper lemmas -/

lemma scanRun_ge {t : List WordEntry} {lx i} (h : t.length ≤ i) : scanRun t lx i = 0 := by
  rw [scanRun]
  exact dif_neg (fun hh => absurd hh.1 (by omega))

lemma find_wordentry_nil (lx : List ℕ) (px : Bool) : find_wordentry [] lx px = (0, 0) := by
  unfold find_wordentry
  rw [bsearchFW]
  cases px <;> simp [scanRun_ge]

lemma drepBuild_eq_nil {t qis} :
    ∀ rest (i : ℕ) (ex : ℕ → Bool),
      (∀ it ∈ rest, ∀ lx px, it = TSQItem.val lx px → (find_wordentry t lx px).2 = 0) →
      drepBuild t qis rest i ex = [] := by
  intro rest
  induction rest with
  | nil => intro i ex _; rfl
  | cons it rest ih =>
    intro i ex hm
    match it with
    | .opr o =>
      exact ih _ _ (fun it2 h2 lx px he => hm it2 (by simp [h2]) lx px he)
    | .val lx px =>
      have hc : (find_wordentry t lx px).2 = 0 := hm _ (by simp) lx px rfl
      rw [drepBuild]
      have hrest : ∀ it2 ∈ rest, ∀ lx2 px2, it2 = TSQItem.val lx2 px2 →
          (find_wordentry t lx2 px2).2 = 0 :=
        fun it2 h2 lx2 px2 he => hm it2 (by simp [h2]) lx2 px2 he
      split
      · exact ih _ _ hrest
      · dsimp only
        rw [if_pos hc]
        exact ih _ _ hrest

lemma get_docrep_none_of_nomatch {t q}
    (hm : ∀ it ∈ q, ∀ lx px, it = TSQItem.val lx px → (find_wordentry t lx px).2 = 0) :
    get_docrep t q = none := by
  unfold get_docrep
  rw [drepBuild_eq_nil _ _ _ hm]
  rfl

lemma get_docrep_nil_vector {q : TSQuery} : get_docrep [] q = none :=
  get_docrep_none_of_nomatch (fun _ _ lx px _ => by rw [find_wordentry_nil])

lemma get_docrep_nil_query {t : List WordEntry} : get_docrep t [] = none := by
  unfold get_docrep
  rfl

/-! ## Claim theorems -/

/-- C1: for every weight table respecting the data-model invariant
(`effW w i ≤ 1`, i.e. the table `get_weights`/`calc_rank_cd` accept), every
method bitmask and both rankers, an empty vector or an empty query yields
exactly `0.0` and no error. -/
theorem c1_allEmpty_zero (w : Fin 4 → ℝ) (t : List WordEntry) (q : TSQuery)
    (exec : (ℕ → Bool) → Bool → Bool) (method : ℕ)
    (hw : ∀ i, effW w i ≤ 1) (h : t.length = 0 ∨ q.length = 0) :
    calc_rank w t q method = 0 ∧ calc_rank_cd w t q exec method = .ok 0 := by
  constructor
  · unfold calc_rank
    rw [if_pos h]
  · unfold calc_rank_cd
    rw [if_pos hw]
    have hnone : get_docrep t q = none := by
      rcases h with h | h
      · rw [List.length_eq_zero.mp h]
        exact get_docrep_nil_vector
      · rw [List.length_eq_zero.mp h]
        exact get_docrep_nil_query
    rw [hnone]

theorem c1_witness :
    (∀ i, effW weights i ≤ 1) ∧
    (([] : List WordEntry).length = 0 ∨ ([TSQItem.val [97] false] : TSQuery).length = 0) ∧
    (calc_rank weights [] [TSQItem.val [97] false] 5 = 0 ∧
      calc_rank_cd weights [] [TSQItem.val [97] false] (fun ex _ => ex 0) 5 = .ok 0) := by
  have hw : ∀ i, effW weights i ≤ 1 := by
    intro i
    fin_cases i <;> simp [effW, weights] <;> norm_num
  exact ⟨hw, Or.inl rfl,
    c1_allEmpty_zero weights [] [TSQItem.val [97] false] (fun ex _ => ex 0) 5 hw (Or.inl rfl)⟩

/-- C4: for non-empty vector and query, the standard ranker dispatches to
`calc_rank_and` exactly when the query root is an `AND` operator and to
`calc_rank_or` for every other root; with fewer than 2 unique operands,
`calc_rank_and` returns `calc_rank_or` on the same inputs. -/
theorem c4_dispatch (w : Fin 4 → ℝ) (t : List WordEntry) (q : TSQuery)
    (_ht : 0 < t.length) (_hq : 0 < q.length) :
    (isAndRoot q = true → calcRankRaw w t q = calc_rank_and w t q) ∧
    (isAndRoot q = false → calcRankRaw w t q = calc_rank_or w t q) ∧
    ((sort_and_uniq_items q).length < 2 → calc_rank_and w t q = calc_rank_or w t q) := by
  refine ⟨fun h => by simp [calcRankRaw, h], fun h => by simp [calcRankRaw, h], fun h => ?_⟩
  unfold calc_rank_and
  dsimp only
  rw [if_pos h]

theorem c4_witness :
    0 < ([(⟨[97], [49153]⟩ : WordEntry)] : List WordEntry).length ∧
    0 < ([TSQItem.opr .opAnd] : TSQuery).length ∧
    ((sort_and_uniq_items [TSQItem.opr .opAnd]).length < 2 →
      calc_rank_and weights [⟨[97], [49153]⟩] [TSQItem.opr .opAnd] =
        calc_rank_or weights [⟨[97], [49153]⟩] [TSQItem.opr .opAnd]) :=
  ⟨by decide, by decide,
    (c4_dispatch weights [⟨[97], [49153]⟩] [TSQItem.opr .opAnd] (by decide) (by decide)).2.2⟩

/-- C9 counterexample: the SelfNorm map `r ↦ r / (r + 1)` is not idempotent;
at the concrete score `r = 1` a second application changes the result
(`1/3 ≠ 1/2`). -/
theorem c9_counterexample : selfNorm (selfNorm 1) ≠ selfNorm (1 : ℝ) := by
  unfold selfNorm
  norm_num

/-- C9 (amended): the SelfNorm step (`res /= res + 1`) of both rankers is
idempotent under its own formula only at `r = 0`: for `r ≥ 0`, applying it
twice agrees with applying it once iff `r = 0`. -/
theorem c9_selfNorm_idem_iff (r : ℝ) (hr : 0 ≤ r) :
    selfNorm (selfNorm r) = selfNorm r ↔ r = 0 := by
  have h1 : r + 1 > 0 := by linarith
  have h1n : r + 1 ≠ 0 := ne_of_gt h1
  have h2 : 2 * r + 1 > 0 := by linarith
  have h2n : 2 * r + 1 ≠ 0 := ne_of_gt h2
  have key : selfNorm (selfNorm r) = r / (2 * r + 1) := by
    unfold selfNorm
    field_simp
    exact Or.inl (by ring)
  rw [key]
  unfold selfNorm
  rw [div_eq_div_iff h2n h1n]
  constructor
  · intro h
    nlinarith
  · intro h
    rw [h]
    ring

theorem c9_witness :
    (0 : ℝ) ≤ 0 ∧ (selfNorm (selfNorm 0) = selfNorm 0 ↔ (0 : ℝ) = 0) :=
  ⟨le_refl 0, c9_selfNorm_idem_iff 0 (le_refl 0)⟩

/-- C5: the per-pair step of `calc_rank_and`, shown here on singleton
position lists (the double loop folds this step over the full Cartesian
product): a pair with distance 0 and no synthetic side contributes nothing;
distance 0 with a synthetic side is replaced by `MAX_POS = 16384`; a
contributing pair adds `curw = sqrt(w[class_i] * w[class_k] * wd)` with
`wd = 1e-30` for distances above 100 and
`1/(1.005 + 0.05*exp(d/1.5 - 2))` otherwise, combined as `curw` on a
still-negative running score and `1 - (1 - res)*(1 - curw)` afterwards. -/
theorem c5_and_pair_step (w : Fin 4 → ℝ) (sI sK : Bool) (pl pk : ℕ) (res : ℝ) :
    andPairs w sI [pl] sK [pk] res =
      (let dist := ((wepGetPos pl : ℤ) - (wepGetPos pk : ℤ)).natAbs
       if dist = 0 ∧ ¬(sI = true ∨ sK = true) then res
       else
         let d := if dist = 0 then 16384 else dist
         let wd : ℝ := if 100 < d then 1e-30
           else 1 / (1.005 + 0.05 * Real.exp ((d : ℝ) / 1.5 - 2))
         let curw := Real.sqrt (w (wepGetWeight pl) * w (wepGetWeight pk) * wd)
         if res < 0 then curw else 1 - (1 - res) * (1 - curw)) := by
  simp only [andPairs, List.foldl_cons, List.foldl_nil, word_distance, MAXENTRYPOS, wpos]
  by_cases h1 : ((wepGetPos pl : ℤ) - (wepGetPos pk : ℤ)).natAbs = 0
  · by_cases h2 : sI = true ∨ sK = true
    · simp [h1, h2]
    · simp [h1, h2]
  · simp [h1]

/-- The single-entry vector used as a concrete input: lexeme "a" with one
position of weight class 3 (packed value `3*16384 + 1`). -/
def exT1 : List WordEntry := [⟨[97], [49153]⟩]

lemma rankNormalize_zero (t : List WordEntry) (r : ℝ) : rankNormalize 0 t r = r := by
  unfold rankNormalize
  simp

lemma rankNormalize_one (t : List WordEntry) (r : ℝ) (ht : 0 < t.length) :
    rankNormalize 1 t r = r / (Real.log ((cnt_length t : ℝ) + 1) / Real.log 2) := by
  unfold rankNormalize
  have hb0 : Nat.testBit 1 0 = true := rfl
  have hb1 : Nat.testBit 1 1 = false := rfl
  have hb3 : Nat.testBit 1 3 = false := rfl
  have hb4 : Nat.testBit 1 4 = false := rfl
  have hb5 : Nat.testBit 1 5 = false := rfl
  simp [hb0, hb1, hb3, hb4, hb5, ht]

lemma rankCDNormalize_zero (t : List WordEntry) (n : ℕ) (sd r : ℝ) :
    rankCDNormalize 0 t n sd r = r := by
  unfold rankCDNormalize
  simp

lemma rankCDNormalize_one (t : List WordEntry) (n : ℕ) (sd r : ℝ) (ht : 0 < t.length) :
    rankCDNormalize 1 t n sd r = r / Real.log ((cnt_length t : ℝ) + 1) := by
  unfold rankCDNormalize
  have hb0 : Nat.testBit 1 0 = true := rfl
  have hb1 : Nat.testBit 1 1 = false := rfl
  have hb2 : Nat.testBit 1 2 = false := rfl
  have hb3 : Nat.testBit 1 3 = false := rfl
  have hb4 : Nat.testBit 1 4 = false := rfl
  have hb5 : Nat.testBit 1 5 = false := rfl
  simp [hb0, hb1, hb2, hb3, hb4, hb5, ht]

/-- C2 counterexample: with the LogLength bit set (`method = 1`) and raw
score 1 on `exT1` (whose `cnt_length` is 1), the standard post-processing
divides by `log₂(cnt_length + 1)`, but the cover-density post-processing
returns `1 / ln 2 ≠ 1 / log₂ 2`: the two rankers do not divide by the same
base-2 logarithm. -/
theorem c2_counterexample :
    rankNormalize 1 exT1 1 = 1 / Real.logb 2 ((cnt_length exT1 : ℝ) + 1) ∧
    rankCDNormalize 1 exT1 0 0 1 ≠ 1 / Real.logb 2 ((cnt_length exT1 : ℝ) + 1) := by
  have hlogpos : 0 < Real.log 2 := Real.log_pos (by norm_num)
  have hlogne : Real.log 2 ≠ 0 := ne_of_gt hlogpos
  have hloglt : Real.log 2 < 1 := lt_trans Real.log_two_lt_d9 (by norm_num)
  have hcnt : cnt_length exT1 = 1 := rfl
  have hlen : 0 < exT1.length := by decide
  have hone : ((cnt_length exT1 : ℝ) + 1) = 2 := by rw [hcnt]; norm_num
  have hlogb : Real.logb 2 ((cnt_length exT1 : ℝ) + 1) = 1 := by
    rw [hone]
    exact Real.logb_self_eq_one (by norm_num)
  constructor
  · rw [rankNormalize_one exT1 1 hlen, hone, div_self hlogne,
      Real.logb_self_eq_one (by norm_num)]
  · rw [rankCDNormalize_one exT1 0 0 1 hlen, hone, Real.logb_self_eq_one (by norm_num)]
    rw [div_one]
    intro h
    field_simp at h
    linarith

/-- C2 (amended): with the LogLength bit (`method = 1`) and a non-empty
vector, the standard ranker divides its raw score by
`log₂(cnt_length(t) + 1)` while the cover-density ranker divides its raw
score by the natural logarithm `ln(cnt_length(t) + 1)`. -/
theorem c2_logLength (w : Fin 4 → ℝ) (t : List WordEntry) (q : TSQuery)
    (exec : (ℕ → Bool) → Bool → Bool) (ht : 0 < t.length) :
    calc_rank w t q 1 = calc_rank w t q 0 / Real.logb 2 ((cnt_length t : ℝ) + 1) ∧
    calc_rank_cd w t q exec 1 =
      (calc_rank_cd w t q exec 0).map (fun r => r / Real.log ((cnt_length t : ℝ) + 1)) := by
  constructor
  · unfold calc_rank
    by_cases hq : t.length = 0 ∨ q.length = 0
    · rw [if_pos hq, if_pos hq, zero_div]
    · rw [if_neg hq, if_neg hq]
      dsimp only
      rw [rankNormalize_zero, rankNormalize_one _ _ ht, Real.logb]
  · unfold calc_rank_cd
    by_cases hw : ∀ i, effW w i ≤ 1
    · rw [if_pos hw, if_pos hw]
      rcases hgd : get_docrep t q with _ | doc
      · simp [Except.map, zero_div]
      · dsimp only
        rw [rankCDNormalize_zero, rankCDNormalize_one _ _ _ _ ht]
        rfl
    · rw [if_neg hw, if_neg hw]
      rfl

theorem c2_witness :
    0 < exT1.length ∧
    (calc_rank weights exT1 [TSQItem.val [97] false] 1 =
        calc_rank weights exT1 [TSQItem.val [97] false] 0 /
          Real.logb 2 ((cnt_length exT1 : ℝ) + 1) ∧
      calc_rank_cd weights exT1 [TSQItem.val [97] false] (fun ex _ => ex 0) 1 =
        (calc_rank_cd weights exT1 [TSQItem.val [97] false] (fun ex _ => ex 0) 0).map
          (fun r => r / Real.log ((cnt_length exT1 : ℝ) + 1))) :=
  ⟨by decide,
    c2_logLength weights exT1 [TSQItem.val [97] false] (fun ex _ => ex 0) (by decide)⟩

/-! ## C3: range of the standard OR ranker -/

lemma foldl_nonneg {α : Type} (f : ℝ → α → ℝ) (h : ∀ r a, 0 ≤ r → 0 ≤ f r a) :
    ∀ (l : List α) (r : ℝ), 0 ≤ r → 0 ≤ l.foldl f r := by
  intro l
  induction l with
  | nil => intro r hr; exact hr
  | cons a l ih => intro r hr; exact ih _ (h r a hr)

lemma orStep_foldl_inv (w : Fin 4 → ℝ) (hw : ∀ i, 0 ≤ w i) :
    ∀ (l : List (ℕ × ℕ)) (st : ℝ × ℝ × ℕ),
      0 ≤ st.1 → ((st.2.1 = -1 ∧ st.2.2 = 0) ∨ 0 ≤ st.2.1) →
      0 ≤ (l.foldl (orStep w) st).1 ∧
        (((l.foldl (orStep w) st).2.1 = -1 ∧ (l.foldl (orStep w) st).2.2 = 0) ∨
          0 ≤ (l.foldl (orStep w) st).2.1) := by
  intro l
  induction l with
  | nil => intro st h1 h2; exact ⟨h1, h2⟩
  | cons a l ih =>
    intro st h1 h2
    have hstep1 : 0 ≤ (orStep w st a).1 := by
      unfold orStep
      split <;>
        exact add_nonneg h1 (div_nonneg (hw _) (by positivity))
    have hstep2 : ((orStep w st a).2.1 = -1 ∧ (orStep w st a).2.2 = 0) ∨
        0 ≤ (orStep w st a).2.1 := by
      unfold orStep
      split
      · exact Or.inr (hw _)
      · exact h2
    exact ih _ hstep1 hstep2

lemma orEntryContrib_nonneg {w : Fin 4 → ℝ} (hw : ∀ i, 0 ≤ w i) (ps : List ℕ) :
    0 ≤ orEntryContrib w ps := by
  unfold orEntryContrib
  dsimp only
  have hC : (0 : ℝ) < 1.64493406685 := by norm_num
  obtain ⟨h1, h2⟩ := orStep_foldl_inv w hw ps.enum (0, -1, 0) le_rfl (Or.inl ⟨rfl, rfl⟩)
  set s := ps.enum.foldl (orStep w) (0, -1, 0) with hs
  rcases h2 with ⟨hm, hj⟩ | hm
  · rw [hm, hj]
    apply div_nonneg _ (le_of_lt hC)
    norm_num
    exact h1
  · apply div_nonneg _ (le_of_lt hC)
    have hden : (1 : ℝ) ≤ (((s.2.2 + 1) * (s.2.2 + 1) : ℕ) : ℝ) := by
      have : 1 ≤ (s.2.2 + 1) * (s.2.2 + 1) := Nat.one_le_iff_ne_zero.mpr (by positivity)
      exact_mod_cast this
    have := div_le_self hm hden
    linarith

/-- C3 (amended): with any nonnegative weight table (in particular the
default `{0.1, 0.2, 0.4, 1.0}`) and no normalisation, the standard OR
ranker's result is nonnegative — but it does not stay below 1
(see the counterexample). -/
theorem c3_rank_or_nonneg (w : Fin 4 → ℝ) (t : List WordEntry) (q : TSQuery)
    (hw : ∀ i, 0 ≤ w i) : 0 ≤ calc_rank_or w t q := by
  unfold calc_rank_or
  dsimp only
  have hmain : 0 ≤ (sort_and_uniq_items q).foldl (fun res op =>
      let fn := find_wordentry t op.1 op.2
      ((t.drop fn.1).take fn.2).foldl (fun r e => r + orEntryContrib w (posListOf e)) res) 0 := by
    refine foldl_nonneg _ ?_ _ _ le_rfl
    intro r op hr
    dsimp only
    refine foldl_nonneg _ ?_ _ _ hr
    intro r2 e h2
    exact add_nonneg h2 (orEntryContrib_nonneg hw _)
  split
  · exact div_nonneg hmain (Nat.cast_nonneg _)
  · exact hmain

theorem c3_witness :
    (∀ i, (0 : ℝ) ≤ weights i) ∧ 0 ≤ calc_rank_or weights exT1 [TSQItem.val [97] false] := by
  have hw : ∀ i, (0 : ℝ) ≤ weights i := by
    intro i
    fin_cases i <;> norm_num [weights]
  exact ⟨hw, c3_rank_or_nonneg weights exT1 [TSQItem.val [97] false] hw⟩

/-- The two-entry vector "a", "ab", each with one class-3 position. -/
def exT2 : List WordEntry := [⟨[97], [49153]⟩, ⟨[97, 98], [49154]⟩]

/-- The one-operand prefix query `"a":*`. -/
def exQpfx : TSQuery := [TSQItem.val [97] true]

lemma exT2_find : find_wordentry exT2 [97] true = (0, 2) := by
  have hb : bsearchFW exT2 [97] 0 2 = (0, true) := by
    rw [bsearchFW]
    norm_num [getLex, exT2, tsCmp]
    rw [bsearchFW]
    norm_num [getLex, exT2, tsCmp]
  have hs : scanRun exT2 [97] 0 = 2 := by
    rw [scanRun]
    rw [dif_pos (by decide)]
    rw [scanRun]
    rw [dif_pos (by decide)]
    rw [scanRun]
    rw [dif_neg (by decide)]
  simp [find_wordentry, show exT2.length = 2 from rfl, hb, hs]

lemma contrib_49153 : orEntryContrib weights [49153] = 1 / 1.64493406685 := by
  unfold orEntryContrib
  have he : ([49153] : List ℕ).enum = [(0, 49153)] := rfl
  rw [he]
  simp only [List.foldl_cons, List.foldl_nil]
  unfold orStep
  have hwv : wpos weights 49153 = 1 := by
    unfold wpos weights wepGetWeight
    norm_num
  rw [hwv]
  norm_num

lemma contrib_49154 : orEntryContrib weights [49154] = 1 / 1.64493406685 := by
  unfold orEntryContrib
  have he : ([49154] : List ℕ).enum = [(0, 49154)] := rfl
  rw [he]
  simp only [List.foldl_cons, List.foldl_nil]
  unfold orStep
  have hwv : wpos weights 49154 = 1 := by
    unfold wpos weights wepGetWeight
    norm_num
  rw [hwv]
  norm_num

/-- C3 counterexample: with the default weight table and no normalisation,
the prefix query `"a":*` against the vector `["a", "ab"]` (one class-3
position each) scores `2 / 1.64493406685 ≈ 1.216 > 1`: the standard OR
ranker's result is not confined to `[0, 1]`. -/
theorem c3_counterexample : 1 < calc_rank_or weights exT2 exQpfx := by
  have hitems : sort_and_uniq_items exQpfx = [([97], true)] := rfl
  unfold calc_rank_or
  rw [hitems]
  simp only [List.foldl_cons, List.foldl_nil, List.length_cons, List.length_nil]
  rw [exT2_find]
  have hrun : ((exT2.drop 0).take 2) = exT2 := rfl
  rw [hrun]
  show 1 < (0 + orEntryContrib weights (posListOf ⟨[97], [49153]⟩) +
      orEntryContrib weights (posListOf ⟨[97, 98], [49154]⟩)) / ((1 : ℕ) : ℝ)
  have hp1 : posListOf ⟨[97], [49153]⟩ = [49153] := rfl
  have hp2 : posListOf ⟨[97, 98], [49154]⟩ = [49154] := rfl
  rw [hp1, hp2, contrib_49153, contrib_49154]
  norm_num

/-! ## C8: the synthetic position for entries without positions -/

/-- The one-entry vector whose entry "a" has no stored positions. -/
def exT3 : List WordEntry := [⟨[97], []⟩]

lemma exT3_find : find_wordentry exT3 [97] false = (0, 1) := by
  have hb : bsearchFW exT3 [97] 0 1 = (0, true) := by
    rw [bsearchFW]
    norm_num [getLex, exT3, tsCmp]
  simp [find_wordentry, show exT3.length = 1 from rfl, hb]

lemma contrib_zero (w : Fin 4 → ℝ) (hw : 0 ≤ w 0) :
    orEntryContrib w [0] = w 0 / 1.64493406685 := by
  unfold orEntryContrib
  have he : ([0] : List ℕ).enum = [(0, 0)] := rfl
  rw [he]
  simp only [List.foldl_cons, List.foldl_nil]
  unfold orStep
  have hwv : wpos w 0 = w 0 := rfl
  rw [hwv]
  rw [if_pos (by norm_num; linarith)]
  norm_num

/-- C8 counterexample: on the vector `[("a", no positions)]` with the
default weights and the query `"a"`, the OR ranker scores the synthetic
occurrence as `0.1 / 1.64493406685` (weight class 0, default weight 0.1),
not as `1 / 1.64493406685` (the highest class, default weight 1.0) that
the claim's `[(pos=0, class=highest)]` would give. -/
theorem c8_counterexample :
    calc_rank_or weights exT3 [TSQItem.val [97] false] = 0.1 / 1.64493406685 ∧
    (0.1 / 1.64493406685 : ℝ) ≠ 1 / 1.64493406685 := by
  constructor
  · have hitems : sort_and_uniq_items [TSQItem.val [97] false] = [([97], false)] := rfl
    unfold calc_rank_or
    rw [hitems]
    simp only [List.foldl_cons, List.foldl_nil, List.length_cons, List.length_nil]
    rw [exT3_find]
    have hrun : ((exT3.drop 0).take 1) = exT3 := rfl
    rw [hrun]
    show (0 + orEntryContrib weights (posListOf ⟨[97], []⟩)) / ((1 : ℕ) : ℝ) =
      0.1 / 1.64493406685
    have hp : posListOf ⟨[97], []⟩ = [0] := rfl
    rw [hp, contrib_zero weights (by norm_num [weights])]
    have hw0 : weights 0 = 0.1 := by norm_num [weights]
    rw [hw0]
    norm_num
  · norm_num

/-- C8 (amended): in `calc_rank_or`, an entry without stored positions is
scored through the synthetic singleton position list `[0]` — a single
occurrence with `pos = 0` and weight class `WEP_GETWEIGHT 0 = 0`, the
lowest class (default weight 0.1) — contributing `w[0] / 1.64493406685`. -/
theorem c8_synthetic (w : Fin 4 → ℝ) (e : WordEntry) (h : e.positions = [])
    (hw : 0 ≤ w 0) :
    posListOf e = [0] ∧ wepGetWeight 0 = 0 ∧
      orEntryContrib w [0] = w 0 / 1.64493406685 := by
  refine ⟨?_, rfl, contrib_zero w hw⟩
  unfold posListOf
  rw [if_pos h]

theorem c8_witness :
    (⟨[97], []⟩ : WordEntry).positions = [] ∧ (0 : ℝ) ≤ weights 0 ∧
    (posListOf ⟨[97], []⟩ = [0] ∧ wepGetWeight 0 = 0 ∧
      orEntryContrib weights [0] = weights 0 / 1.64493406685) := by
  have hw : (0 : ℝ) ≤ weights 0 := by norm_num [weights]
  exact ⟨rfl, hw, c8_synthetic weights ⟨[97], []⟩ rfl hw⟩

/-! ## C10: no matching operand -/

/-- C10: when no operand leaf of the query matches any lexeme of the
vector, `get_docrep` returns `NULL` and `calc_rank_cd` returns exactly
`0.0`, skipping the cover loop and every normalisation, for every method
bitmask and every weight table respecting the data-model invariant. -/
theorem c10_no_match_zero (w : Fin 4 → ℝ) (t : List WordEntry) (q : TSQuery)
    (exec : (ℕ → Bool) → Bool → Bool) (method : ℕ)
    (hw : ∀ i, effW w i ≤ 1) (_ht : 0 < t.length) (_hq : 0 < q.length)
    (hm : ∀ it ∈ q, ∀ lx px, it = TSQItem.val lx px → (find_wordentry t lx px).2 = 0) :
    get_docrep t q = none ∧ calc_rank_cd w t q exec method = .ok 0 := by
  have hnone := get_docrep_none_of_nomatch hm
  refine ⟨hnone, ?_⟩
  unfold calc_rank_cd
  rw [if_pos hw, hnone]

/-- The vector `["b"]` and query `"a"`, which do not match. -/
def exT4 : List WordEntry := [⟨[98], [1]⟩]

def exQ4 : TSQuery := [TSQItem.val [97] false]

lemma exT4_find : find_wordentry exT4 [97] false = (0, 0) := by
  have hb : bsearchFW exT4 [97] 0 1 = (0, false) := by
    rw [bsearchFW]
    norm_num [getLex, exT4, tsCmp]
    rw [bsearchFW]
    norm_num
  simp [find_wordentry, show exT4.length = 1 from rfl, hb]

theorem c10_witness :
    (∀ i, effW weights i ≤ 1) ∧ 0 < exT4.length ∧ 0 < exQ4.length ∧
    (∀ it ∈ exQ4, ∀ lx px, it = TSQItem.val lx px → (find_wordentry exT4 lx px).2 = 0) ∧
    (get_docrep exT4 exQ4 = none ∧
      calc_rank_cd weights exT4 exQ4 (fun ex _ => ex 0) 3 = .ok 0) := by
  have hw : ∀ i, effW weights i ≤ 1 := by
    intro i
    fin_cases i <;> simp [effW, weights] <;> norm_num
  have hm : ∀ it ∈ exQ4, ∀ lx px, it = TSQItem.val lx px →
      (find_wordentry exT4 lx px).2 = 0 := by
    intro it hit lx px he
    subst he
    simp only [exQ4, List.mem_singleton] at hit
    injection hit with h1 h2
    subst h1
    subst h2
    rw [exT4_find]
  exact ⟨hw, by decide, by decide, hm,
    c10_no_match_zero weights exT4 exQ4 (fun ex _ => ex 0) 3 hw (by decide) (by decide) hm⟩

/-! ## C7: the cover search -/

/-- C7: `cover` is a total function of the embedding (its recursion is
well-founded: every retry advances `ext->pos` by one and the scan is
bounded by the doc-rep length), and whenever it reports success on a
doc-rep whose positions are genuine (below the `0x7fffffff` sentinel `p`
is initialised to), the recorded extent satisfies `p ≤ q`, the new
`state.pos` is strictly greater than the reported cover's begin index, and
`state.pos` strictly advances while staying bounded by the doc-rep
length. -/
theorem c7_cover_postconditions (qis : TSQuery) (exec : (ℕ → Bool) → Bool → Bool)
    (doc : List Occ) (ext ex2 : Ext) (hb : ∀ o ∈ doc, o.pos < INITP)
    (h : cover qis exec doc ext = some ex2) :
    ex2.p ≤ ex2.q ∧ ex2.b < ex2.pos ∧ ext.pos < ex2.pos ∧ ex2.pos ≤ doc.length := by
  obtain ⟨_, h2, h3, h4, h5, _, _⟩ := cover_some_facts hb h
  exact ⟨h4, h5, h2, h3⟩

def exQ7 : TSQuery := [TSQItem.val [97] false]

def exDoc7 : List Occ := [⟨1, 3, [0]⟩]

def exExec7 : (ℕ → Bool) → Bool → Bool := fun ex _ => ex 0

lemma c7ex_fwd : fwdScan exQ7 exExec7 exDoc7 (fun _ => false) 0 = some 0 := by
  rw [fwdScan]
  simp [setExist, getOcc, exDoc7, exQ7, exExec7, Function.update]

lemma c7ex_bwd : bwdScan exQ7 exExec7 exDoc7 (fun _ => false) 0 0 = some 0 := by
  rw [bwdScan]
  simp [setExist, getOcc, exDoc7, exQ7, exExec7, Function.update]

lemma c7ex_cover : cover exQ7 exExec7 exDoc7 ⟨0, 0, 0, 0, 0⟩ = some ⟨1, 1, 1, 0, 0⟩ := by
  rw [cover]
  dsimp only
  split
  · rename_i heq
    rw [c7ex_fwd] at heq
    exact absurd heq (by simp)
  · rename_i u heq
    rw [c7ex_fwd] at heq
    injection heq with h1
    subst h1
    rw [if_pos (by norm_num [getOcc, exDoc7])]
    split
    · rename_i l heq2
      rw [c7ex_bwd] at heq2
      injection heq2 with h2
      subst h2
      rw [if_pos (by norm_num [getOcc, exDoc7, INITP])]
      rw [if_pos (by norm_num [getOcc, exDoc7, INITP])]
      norm_num [getOcc, exDoc7]
    · rename_i heq2
      rw [c7ex_bwd] at heq2
      exact absurd heq2 (by simp)

theorem c7_witness :
    (∀ o ∈ exDoc7, o.pos < INITP) ∧
    ((⟨1, 1, 1, 0, 0⟩ : Ext).p ≤ (⟨1, 1, 1, 0, 0⟩ : Ext).q ∧
      (⟨1, 1, 1, 0, 0⟩ : Ext).b < (⟨1, 1, 1, 0, 0⟩ : Ext).pos ∧
      (⟨0, 0, 0, 0, 0⟩ : Ext).pos < (⟨1, 1, 1, 0, 0⟩ : Ext).pos ∧
      (⟨1, 1, 1, 0, 0⟩ : Ext).pos ≤ exDoc7.length) := by
  have hb : ∀ o ∈ exDoc7, o.pos < INITP := by decide
  exact ⟨hb, c7_cover_postconditions exQ7 exExec7 exDoc7 ⟨0, 0, 0, 0, 0⟩ ⟨1, 1, 1, 0, 0⟩
    hb c7ex_cover⟩

/-! ## C6: correctness of `find_wordentry` -/

lemma tsCmp_eq_iff : ∀ (a b : List ℕ), tsCmp a b false = .eq ↔ a = b := by
  intro a
  induction a with
  | nil =>
    intro b
    cases b <;> simp [tsCmp]
  | cons x as ih =>
    intro b
    cases b with
    | nil => simp [tsCmp]
    | cons y bs =>
      rw [tsCmp]
      by_cases h1 : x < y
      · rw [if_pos h1]
        constructor
        · intro hc; exact absurd hc (by decide)
        · intro hc
          injection hc with he _
          omega
      · rw [if_neg h1]
        by_cases h2 : y < x
        · rw [if_pos h2]
          constructor
          · intro hc; exact absurd hc (by decide)
          · intro hc
            injection hc with he _
            omega
        · rw [if_neg h2]
          have hxy : x = y := by omega
          subst hxy
          rw [ih bs]
          constructor
          · intro hc; rw [hc]
          · intro hc; injection hc

lemma tsCmp_flip : ∀ (a b : List ℕ), tsCmp a b false = .gt ↔ tsCmp b a false = .lt := by
  intro a
  induction a with
  | nil =>
    intro b
    cases b <;> simp [tsCmp]
  | cons x as ih =>
    intro b
    cases b with
    | nil => simp [tsCmp]
    | cons y bs =>
      rw [tsCmp, tsCmp]
      by_cases h1 : x < y
      · rw [if_pos h1, if_neg (by omega), if_pos h1]
        simp
      · rw [if_neg h1]
        by_cases h2 : y < x
        · rw [if_pos h2, if_pos h2]
          simp
        · rw [if_neg h2, if_neg h2, if_neg h1]
          exact ih bs

lemma tsCmp_lt_trans : ∀ (a b c : List ℕ), tsCmp a b false = .lt →
    tsCmp b c false = .lt → tsCmp a c false = .lt := by
  intro a
  induction a with
  | nil =>
    intro b c hab hbc
    cases b with
    | nil => exact absurd hab (by simp [tsCmp])
    | cons y bs =>
      cases c with
      | nil => exact absurd hbc (by simp [tsCmp])
      | cons z cs => simp [tsCmp]
  | cons x as ih =>
    intro b c hab hbc
    cases b with
    | nil => exact absurd hab (by simp [tsCmp])
    | cons y bs =>
      cases c with
      | nil => exact absurd hbc (by simp [tsCmp])
      | cons z cs =>
        rw [tsCmp] at hab hbc ⊢
        by_cases h1 : x < y
        · by_cases h2 : y < z
          · rw [if_pos (by omega)]
          · rw [if_neg h2] at hbc
            by_cases h3 : z < y
            · rw [if_pos h3] at hbc
              exact absurd hbc (by decide)
            · have : y = z := by omega
              subst this
              rw [if_pos h1]
        · rw [if_neg h1] at hab
          by_cases h2 : y < x
          · rw [if_pos h2] at hab
            exact absurd hab (by decide)
          · rw [if_neg h2] at hab
            have hxy : x = y := by omega
            subst hxy
            by_cases h3 : x < z
            · rw [if_pos h3]
            · rw [if_neg h3] at hbc ⊢
              by_cases h4 : z < x
              · rw [if_pos h4] at hbc
                exact absurd hbc (by decide)
              · rw [if_neg h4] at hbc ⊢
                exact ih bs cs hab hbc

lemma tsCmpT_eq_iff_pfx : ∀ (a b : List ℕ), tsCmp a b true = .eq ↔ isPfxOf a b = true := by
  intro a
  induction a with
  | nil =>
    intro b
    cases b <;> simp [tsCmp, isPfxOf]
  | cons x as ih =>
    intro b
    cases b with
    | nil => simp [tsCmp, isPfxOf]
    | cons y bs =>
      rw [tsCmp, isPfxOf]
      by_cases h1 : x < y
      · rw [if_pos h1]
        simp only [Bool.and_eq_true, decide_eq_true_eq]
        constructor
        · intro hc; exact absurd hc (by decide)
        · intro hc; omega
      · rw [if_neg h1]
        by_cases h2 : y < x
        · rw [if_pos h2]
          simp only [Bool.and_eq_true, decide_eq_true_eq]
          constructor
          · intro hc; exact absurd hc (by decide)
          · intro hc; omega
        · rw [if_neg h2]
          have hxy : x = y := by omega
          subst hxy
          simp only [Bool.and_eq_true, decide_eq_true_eq]
          rw [ih bs]
          simp

lemma isPfxOf_refl : ∀ (a : List ℕ), isPfxOf a a = true := by
  intro a
  induction a with
  | nil => rfl
  | cons x as ih => simp [isPfxOf, ih]

lemma pfx_not_gt : ∀ (a b : List ℕ), isPfxOf a b = true → tsCmp a b false ≠ .gt := by
  intro a
  induction a with
  | nil =>
    intro b _
    cases b <;> simp [tsCmp]
  | cons x as ih =>
    intro b hp
    cases b with
    | nil => exact absurd hp (by simp [isPfxOf])
    | cons y bs =>
      rw [isPfxOf] at hp
      simp only [Bool.and_eq_true, decide_eq_true_eq] at hp
      obtain ⟨hxy, hp⟩ := hp
      subst hxy
      rw [tsCmp, if_neg (lt_irrefl x), if_neg (lt_irrefl x)]
      exact ih bs hp

lemma pfx_convex : ∀ (q a b c : List ℕ), tsCmp a b false ≠ .gt → tsCmp b c false ≠ .gt →
    isPfxOf q a = true → isPfxOf q c = true → isPfxOf q b = true := by
  intro q
  induction q with
  | nil => intro a b c _ _ _ _; rfl
  | cons x qs ih =>
    intro a b c hab hbc hqa hqc
    cases a with
    | nil => exact absurd hqa (by simp [isPfxOf])
    | cons a0 as =>
      cases c with
      | nil => exact absurd hqc (by simp [isPfxOf])
      | cons c0 cs =>
        rw [isPfxOf] at hqa hqc
        simp only [Bool.and_eq_true, decide_eq_true_eq] at hqa hqc
        obtain ⟨hxa, hqa⟩ := hqa
        obtain ⟨hxc, hqc⟩ := hqc
        subst hxa
        subst hxc
        cases b with
        | nil => exact absurd (by simp [tsCmp]) hab
        | cons b0 bs =>
          rw [tsCmp] at hab hbc
          by_cases h1 : x < b0
          · -- then b0 > x, so tsCmp (b0::bs) (x::cs) = .gt, contradicting hbc
            rw [if_neg (by omega), if_pos h1] at hbc
            exact absurd rfl hbc
          · by_cases h2 : b0 < x
            · rw [if_neg (by omega), if_pos h2] at hab
              exact absurd rfl hab
            · have hbx : b0 = x := by omega
              subst hbx
              rw [if_neg h1, if_neg h2] at hab
              rw [if_neg h2, if_neg h1] at hbc
              rw [isPfxOf]
              simp only [Bool.and_eq_true, decide_eq_true_eq]
              exact ⟨trivial, ih as bs cs hab hbc hqa hqc⟩


lemma tsSorted_lt {t : List WordEntry} (ht : tsSorted t) {i j : ℕ} (hij : i < j)
    (hj : j < t.length) : tsCmp (getLex t i) (getLex t j) false = .lt := by
  unfold tsSorted at ht
  rw [List.pairwise_iff_get] at ht
  have hi : i < t.length := lt_trans hij hj
  have := ht ⟨i, hi⟩ ⟨j, hj⟩ hij
  rw [getLex, getLex, List.getD_eq_getElem _ _ hi, List.getD_eq_getElem _ _ hj]
  exact this

lemma bsearchFW_spec {t : List WordEntry} {lx : List ℕ} (ht : tsSorted t) :
    ∀ k lo hi, hi - lo ≤ k → hi ≤ t.length → lo ≤ hi →
      (∀ j, j < lo → tsCmp lx (getLex t j) false = .gt) →
      (∀ j, hi ≤ j → j < t.length → tsCmp lx (getLex t j) false = .lt) →
      lo ≤ (bsearchFW t lx lo hi).1 ∧ (bsearchFW t lx lo hi).1 ≤ hi ∧
      ((bsearchFW t lx lo hi).2 = true → (bsearchFW t lx lo hi).1 < t.length ∧
        tsCmp lx (getLex t (bsearchFW t lx lo hi).1) false = .eq) ∧
      ((bsearchFW t lx lo hi).2 = false →
        (∀ j, j < (bsearchFW t lx lo hi).1 → tsCmp lx (getLex t j) false = .gt) ∧
        (∀ j, (bsearchFW t lx lo hi).1 ≤ j → j < t.length →
          tsCmp lx (getLex t j) false = .lt)) := by
  intro k
  induction k with
  | zero =>
    intro lo hi hk hhi hle hA hB
    rw [bsearchFW, dif_neg (by omega)]
    exact ⟨by omega, le_rfl, fun hf => absurd hf (by simp),
      fun _ => ⟨fun j hj => hA j (by omega), hB⟩⟩
  | succ n ih =>
    intro lo hi hk hhi hle hA hB
    by_cases hlh : lo < hi
    · rw [bsearchFW, dif_pos hlh]
      dsimp only
      set mid := lo + (hi - lo) / 2 with hmid
      have hmlt : mid < hi := by omega
      have hmge : lo ≤ mid := by omega
      have hmlen : mid < t.length := by omega
      cases hc : tsCmp lx (getLex t mid) false with
      | eq =>
        exact ⟨hmge, le_of_lt hmlt, fun _ => ⟨hmlen, hc⟩, fun hf => absurd hf (by simp)⟩
      | gt =>
        have hA2 : ∀ j, j < mid + 1 → tsCmp lx (getLex t j) false = .gt := by
          intro j hj
          by_cases hjlo : j < lo
          · exact hA j hjlo
          · by_cases hjm : j = mid
            · rw [hjm]
              exact hc
            · have hs1 : tsCmp (getLex t j) (getLex t mid) false = .lt :=
                tsSorted_lt ht (by omega) hmlen
              have hs2 : tsCmp (getLex t mid) lx false = .lt := (tsCmp_flip _ _).mp hc
              exact (tsCmp_flip _ _).mpr (tsCmp_lt_trans _ _ _ hs1 hs2)
        have hrec := ih (mid + 1) hi (by omega) hhi (by omega) hA2 hB
        refine ⟨?_, hrec.2.1, hrec.2.2.1, hrec.2.2.2⟩
        show lo ≤ (bsearchFW t lx (mid + 1) hi).1
        have := hrec.1
        omega
      | lt =>
        have hB2 : ∀ j, mid ≤ j → j < t.length → tsCmp lx (getLex t j) false = .lt := by
          intro j hj1 hj2
          by_cases hjm : j = mid
          · rw [hjm]
            exact hc
          · have hs1 : tsCmp (getLex t mid) (getLex t j) false = .lt :=
              tsSorted_lt ht (by omega) hj2
            exact tsCmp_lt_trans _ _ _ hc hs1
        have hrec := ih lo mid (by omega) (by omega) hmge hA hB2
        refine ⟨hrec.1, ?_, hrec.2.2.1, hrec.2.2.2⟩
        show (bsearchFW t lx lo mid).1 ≤ hi
        have := hrec.2.1
        omega
    · rw [bsearchFW, dif_neg hlh]
      exact ⟨by omega, le_rfl, fun hf => absurd hf (by simp),
        fun _ => ⟨fun j hj => hA j (by omega), hB⟩⟩

lemma scanRun_spec {t : List WordEntry} {lx : List ℕ} :
    ∀ k i, t.length - i ≤ k → i ≤ t.length →
      i + scanRun t lx i ≤ t.length ∧
      (∀ j, i ≤ j → j < i + scanRun t lx i → tsCmp lx (getLex t j) true = .eq) ∧
      (i + scanRun t lx i < t.length →
        tsCmp lx (getLex t (i + scanRun t lx i)) true ≠ .eq) := by
  intro k
  induction k with
  | zero =>
    intro i hk hi
    rw [scanRun_ge (by omega)]
    exact ⟨by omega, fun j hj1 hj2 => by omega, fun h => by omega⟩
  | succ n ih =>
    intro i hk hi
    by_cases hcond : i < t.length ∧ tsCmp lx (getLex t i) true = .eq
    · rw [scanRun, dif_pos hcond]
      obtain ⟨h1, h2, h3⟩ := ih (i + 1) (by omega) (by omega)
      refine ⟨by omega, ?_, ?_⟩
      · intro j hj1 hj2
        by_cases hij : j = i
        · rw [hij]
          exact hcond.2
        · exact h2 j (by omega) (by omega)
      · have heq : i + (1 + scanRun t lx (i + 1)) = (i + 1) + scanRun t lx (i + 1) := by
          omega
        rw [heq]
        exact h3
    · rw [scanRun, dif_neg hcond]
      simp only [Nat.add_zero]
      exact ⟨hi, fun j hj1 hj2 => by omega, fun hlt hceq => hcond ⟨hlt, hceq⟩⟩

/-- C6: on a sorted, de-duplicated vector, `find_wordentry` with
`prefix = false` returns count 0 or 1 — count 1 exactly when the operand
string occurs, and then the returned index holds the bytewise-equal entry;
with `prefix = true` it returns a run `[first, first + count)` inside the
vector that contains exactly the entries whose lexeme begins with the
operand (what a brute-force linear scan would find). -/
theorem c6_find_wordentry (t : List WordEntry) (lx : List ℕ) (ht : tsSorted t) :
    ((find_wordentry t lx false).2 = 0 ∨ (find_wordentry t lx false).2 = 1) ∧
    ((find_wordentry t lx false).2 = 1 ↔ ∃ i, i < t.length ∧ getLex t i = lx) ∧
    ((find_wordentry t lx false).2 = 1 →
      (find_wordentry t lx false).1 < t.length ∧
        getLex t (find_wordentry t lx false).1 = lx) ∧
    ((find_wordentry t lx true).1 + (find_wordentry t lx true).2 ≤ t.length) ∧
    (∀ i, i < t.length →
      (isPfxOf lx (getLex t i) = true ↔
        (find_wordentry t lx true).1 ≤ i ∧
          i < (find_wordentry t lx true).1 + (find_wordentry t lx true).2)) := by
  obtain ⟨hge, hle, hfound, hnotfound⟩ :=
    bsearchFW_spec ht t.length 0 t.length le_rfl le_rfl (Nat.zero_le _)
      (fun j hj => by omega) (fun j hj1 hj2 => by omega)
  set r := bsearchFW t lx 0 t.length with hr
  have hfe : find_wordentry t lx false = (r.1, if r.2 = true then 1 else 0) := rfl
  have hfep : find_wordentry t lx true = (r.1, scanRun t lx r.1) := rfl
  obtain ⟨hs1, hs2, hs3⟩ := @scanRun_spec t lx (t.length - r.1) r.1 le_rfl hle
  have hF1 : ∀ j, j < r.1 → tsCmp lx (getLex t j) false = .gt := by
    intro j hj
    cases hb : r.2 with
    | true =>
      obtain ⟨hrlen, hreq⟩ := hfound hb
      have hlxeq : lx = getLex t r.1 := (tsCmp_eq_iff _ _).mp hreq
      have hs : tsCmp (getLex t j) (getLex t r.1) false = .lt := tsSorted_lt ht hj hrlen
      rw [← hlxeq] at hs
      exact (tsCmp_flip _ _).mpr hs
    | false => exact (hnotfound hb).1 j hj
  refine ⟨?_, ?_, ?_, ?_, ?_⟩
  · rw [hfe]
    cases hb : r.2 <;> simp
  · rw [hfe]
    constructor
    · intro h1
      dsimp only at h1
      cases hb : r.2 with
      | false =>
        rw [hb] at h1
        simp at h1
      | true =>
        obtain ⟨hrlen, hreq⟩ := hfound hb
        exact ⟨r.1, hrlen, ((tsCmp_eq_iff _ _).mp hreq).symm⟩
    · rintro ⟨i, hilen, hieq⟩
      dsimp only
      cases hb : r.2 with
      | true => simp
      | false =>
        obtain ⟨hA2, hB2⟩ := hnotfound hb
        exfalso
        have hceq : tsCmp lx (getLex t i) false = .eq := (tsCmp_eq_iff _ _).mpr hieq.symm
        by_cases hir : i < r.1
        · have h2 := hA2 i hir
          rw [hceq] at h2
          exact absurd h2 (by decide)
        · have h2 := hB2 i (by omega) hilen
          rw [hceq] at h2
          exact absurd h2 (by decide)
  · rw [hfe]
    dsimp only
    intro h1
    cases hb : r.2 with
    | false =>
      rw [hb] at h1
      simp at h1
    | true =>
      obtain ⟨hrlen, hreq⟩ := hfound hb
      exact ⟨hrlen, ((tsCmp_eq_iff _ _).mp hreq).symm⟩
  · rw [hfep]
    exact hs1
  · intro i hilen
    rw [hfep]
    dsimp only
    constructor
    · intro hpfx
      have hge1 : r.1 ≤ i := by
        by_contra hcon
        exact pfx_not_gt _ _ hpfx (hF1 i (by omega))
      refine ⟨hge1, ?_⟩
      by_contra hcon
      push_neg at hcon
      set m := r.1 + scanRun t lx r.1 with hm
      have hmlen : m < t.length := by omega
      have hmne : tsCmp lx (getLex t m) true ≠ .eq := hs3 hmlen
      have hmnpfx : isPfxOf lx (getLex t m) = false := by
        cases hp2 : isPfxOf lx (getLex t m) with
        | false => rfl
        | true => exact absurd ((tsCmpT_eq_iff_pfx _ _).mpr hp2) hmne
      have higt : m < i := by
        rcases Nat.lt_or_ge m i with h | h
        · exact h
        · have him : i = m := by omega
          rw [him] at hpfx
          rw [hpfx] at hmnpfx
          cases hmnpfx
      by_cases hn : scanRun t lx r.1 = 0
      · cases hb : r.2 with
        | true =>
          obtain ⟨hrlen, hreq⟩ := hfound hb
          have hp3 : isPfxOf lx (getLex t m) = true := by
            rw [hm, hn, Nat.add_zero, ← ((tsCmp_eq_iff _ _).mp hreq)]
            exact isPfxOf_refl lx
          rw [hp3] at hmnpfx
          cases hmnpfx
        | false =>
          obtain ⟨hA2, hB2⟩ := hnotfound hb
          have hab : tsCmp lx (getLex t m) false ≠ .gt := by
            rw [hB2 m (by omega) hmlen]
            decide
          have hbc : tsCmp (getLex t m) (getLex t i) false ≠ .gt := by
            rw [tsSorted_lt ht higt hilen]
            decide
          have hp3 := pfx_convex lx lx (getLex t m) (getLex t i) hab hbc
            (isPfxOf_refl lx) hpfx
          rw [hp3] at hmnpfx
          cases hmnpfx
      · have hapfx : isPfxOf lx (getLex t (m - 1)) = true :=
          (tsCmpT_eq_iff_pfx _ _).mp (hs2 (m - 1) (by omega) (by omega))
        have hab : tsCmp (getLex t (m - 1)) (getLex t m) false ≠ .gt := by
          rw [tsSorted_lt ht (by omega) hmlen]
          decide
        have hbc : tsCmp (getLex t m) (getLex t i) false ≠ .gt := by
          rw [tsSorted_lt ht higt hilen]
          decide
        have hp3 := pfx_convex lx (getLex t (m - 1)) (getLex t m) (getLex t i)
          hab hbc hapfx hpfx
        rw [hp3] at hmnpfx
        cases hmnpfx
    · rintro ⟨hge1, hlt1⟩
      exact (tsCmpT_eq_iff_pfx _ _).mp (hs2 i hge1 hlt1)

theorem c6_witness :
    tsSorted exT2 ∧
    (((find_wordentry exT2 [97] false).2 = 0 ∨ (find_wordentry exT2 [97] false).2 = 1) ∧
    ((find_wordentry exT2 [97] false).2 = 1 ↔ ∃ i, i < exT2.length ∧ getLex exT2 i = [97]) ∧
    ((find_wordentry exT2 [97] false).2 = 1 →
      (find_wordentry exT2 [97] false).1 < exT2.length ∧
        getLex exT2 (find_wordentry exT2 [97] false).1 = [97]) ∧
    ((find_wordentry exT2 [97] true).1 + (find_wordentry exT2 [97] true).2 ≤ exT2.length) ∧
    (∀ i, i < exT2.length →
      (isPfxOf [97] (getLex exT2 i) = true ↔
        (find_wordentry exT2 [97] true).1 ≤ i ∧
          i < (find_wordentry exT2 [97] true).1 + (find_wordentry exT2 [97] true).2))) := by
  have ht : tsSorted exT2 := by
    unfold tsSorted exT2
    decide
  exact ⟨ht, c6_find_wordentry exT2 [97] ht⟩

end TsRank
